import Mathlib

/-!
# akprag: prime-field group, field helpers, Beaver dot product and Cmp

A shallow embedding of the C sources

* `src/dcf/group/u64.c`  (`group_add`, `group_neg`, `group_zero`),
* `src/dotprod.c`        (`add_mod_p`, `sub_mod_p`, `mul_mod_p`, `setup_data`, the kernel),
* `src/cmp.c`            (the Cmp dealer setup and the Cmp evaluation),
* `src/retrieval.c`      (the score phase and the step loop),

together with the properties proved about them.

Conventions.  A `uint64_t` is a natural number below `2^64`, a `unsigned __int128`
a natural number below `2^128`; every C operation that can wrap is written with its
explicit reduction.  A byte buffer is a list of bytes (naturals below 256); the
`uint64_t *` view of the first eight bytes is the little-endian one.
-/

namespace Akprag

/-! ## Machine words and byte buffers -/

/-- The prime `kPrime` of `u64.c`, `dotprod.c`, `cmp.c` and `retrieval.c`. -/
def kPrime : Nat := 18446744073709551557

/-- The group width in bytes (`kLambda`, forced to 16 by the `#error` guard of `u64.c`). -/
def kLambda : Nat := 16

/-- Number of values of a `uint64_t`. -/
def two64 : Nat := 18446744073709551616

/-- Number of values of an `unsigned __int128`. -/
def two128 : Nat := 340282366920938463463374607431768211456

/-- Wrapping `uint64_t` addition. -/
def add64 (a b : Nat) : Nat := (a + b) % two64

/-- Wrapping `uint64_t` subtraction. -/
def sub64 (a b : Nat) : Nat := (a + two64 - b) % two64

/-- Value of a little-endian byte string. -/
def leVal : List Nat → Nat
  | [] => 0
  | b :: bs => b + 256 * leVal bs

/-- The `n` low bytes of `v`, least significant first. -/
def leBytes : Nat → Nat → List Nat
  | 0, _ => []
  | n + 1, v => (v % 256) :: leBytes n (v / 256)

/-- Read through a `uint64_t *` that points at the start of the buffer. -/
def load64 (buf : List Nat) : Nat := leVal (buf.take 8)

/-- Write through a `uint64_t *` that points at the start of the buffer. -/
def store64 (buf : List Nat) (v : Nat) : List Nat := leBytes 8 v ++ buf.drop 8

/-- The call `memset(buf + off, c, n)`. -/
def memset (buf : List Nat) (off c n : Nat) : List Nat :=
  buf.take off ++ List.replicate n c ++ buf.drop (off + n)

/-- A well-formed group buffer: `kLambda` bytes. -/
def IsBuf (buf : List Nat) : Prop := buf.length = kLambda ∧ ∀ b ∈ buf, b < 256

instance (buf : List Nat) : Decidable (IsBuf buf) := by
  unfold IsBuf; infer_instance

/-! ## `src/dcf/group/u64.c` -/

/-- The function `group_add(val, rhs)`.  The result is the pair of the two buffers
after the call (`rhs` is only read, its word is copied into the local `rhs64`). -/
def group_add (val rhs : List Nat) : List Nat × List Nat :=
  -- if (*val64 >= kPrime) *val64 -= kPrime;
  let val1 := if load64 val ≥ kPrime then store64 val (sub64 (load64 val) kPrime) else val
  -- uint64_t rhs64 = *rhs64_ptr;
  let rhs64 := load64 rhs
  -- if (rhs64 >= kPrime) rhs64 -= kPrime;
  let rhs64 := if rhs64 ≥ kPrime then sub64 rhs64 kPrime else rhs64
  -- if (*val64 >= kPrime - rhs64) *val64 += rhs64 - kPrime; else *val64 += rhs64;
  let val2 :=
    if load64 val1 ≥ sub64 kPrime rhs64 then
      store64 val1 (add64 (load64 val1) (sub64 rhs64 kPrime))
    else
      store64 val1 (add64 (load64 val1) rhs64)
  -- memset(val + 8, 0, 8);
  (memset val2 8 0 8, rhs)

/-- The function `group_neg(val)`. -/
def group_neg (val : List Nat) : List Nat :=
  -- if (*val64 >= kPrime) *val64 -= kPrime;
  let val1 := if load64 val ≥ kPrime then store64 val (sub64 (load64 val) kPrime) else val
  -- if (*val64 == 0) return;
  if load64 val1 = 0 then val1
  else
    -- *val64 = kPrime - *val64;
    let val2 := store64 val1 (sub64 kPrime (load64 val1))
    -- memset(val + 8, 0, 8);
    memset val2 8 0 8

/-- The function `group_zero(val)`: `memset(val, 0, 8)`. -/
def group_zero (val : List Nat) : List Nat := memset val 0 0 8

/-! ## Field helpers

`add_mod_p` and `sub_mod_p` appear with the same text in `dotprod.c`, `cmp.c` and
`retrieval.c`, `mul_mod_p` and `get_rand_field` in `dotprod.c` and `retrieval.c`. -/

/-- The function `add_mod_p`: `(uint64_t)(((uint128_t)a + b) % kPrime)`. -/
def add_mod_p (a b : Nat) : Nat := ((a + b) % two128 % kPrime) % two64

/-- The function `sub_mod_p`: `(uint64_t)(((uint128_t)a + kPrime - b) % kPrime)`. -/
def sub_mod_p (a b : Nat) : Nat :=
  (((a + kPrime) % two128 + two128 - b) % two128 % kPrime) % two64

/-- The function `mul_mod_p`: `(uint64_t)(((uint128_t)a * b) % kPrime)`. -/
def mul_mod_p (a b : Nat) : Nat := ((a * b) % two128 % kPrime) % two64

/-- The function `get_rand_field`, applied to the 64-bit word `r` that `gen_rand_bytes`
and `memcpy` put together. -/
def get_rand_field (r : Nat) : Nat := if r ≥ kPrime then sub64 r kPrime else r

/-- A C loop `for (int k = 0; k < n; ++k) body`, run on the state `s`. -/
def forLoop {σ : Type} (n : Nat) (body : σ → Nat → σ) (s : σ) : σ :=
  (List.range n).foldl body s

/-! ## `src/dotprod.c` (and the same text in `src/retrieval.c`) -/

/-- The ten global share arrays; an array is the function from index to element. -/
structure DotData where
  share_a_0 : Nat → Nat
  share_a_1 : Nat → Nat
  share_b_0 : Nat → Nat
  share_b_1 : Nat → Nat
  share_x_0 : Nat → Nat
  share_x_1 : Nat → Nat
  share_y_0 : Nat → Nat
  share_y_1 : Nat → Nat
  share_z_0 : Nat → Nat
  share_z_1 : Nat → Nat

/-- One pass of the loop body of `setup_data` (`setup_dotprod_data` in `retrieval.c`).
The word that the `i`-th call of `get_rand_field` assembles is `rnd i`; the body makes
nine calls. -/
def setup_step (rnd : Nat → Nat) (D : DotData) (k : Nat) : DotData :=
  let ak := get_rand_field (rnd (9 * k))
  let bk := get_rand_field (rnd (9 * k + 1))
  let xk := get_rand_field (rnd (9 * k + 2))
  let yk := get_rand_field (rnd (9 * k + 3))
  let zk := mul_mod_p xk yk
  let a0 := get_rand_field (rnd (9 * k + 4))
  let b0 := get_rand_field (rnd (9 * k + 5))
  let x0 := get_rand_field (rnd (9 * k + 6))
  let y0 := get_rand_field (rnd (9 * k + 7))
  let z0 := get_rand_field (rnd (9 * k + 8))
  { share_a_0 := Function.update D.share_a_0 k a0
    share_a_1 := Function.update D.share_a_1 k (sub_mod_p ak a0)
    share_b_0 := Function.update D.share_b_0 k b0
    share_b_1 := Function.update D.share_b_1 k (sub_mod_p bk b0)
    share_x_0 := Function.update D.share_x_0 k x0
    share_x_1 := Function.update D.share_x_1 k (sub_mod_p xk x0)
    share_y_0 := Function.update D.share_y_0 k y0
    share_y_1 := Function.update D.share_y_1 k (sub_mod_p yk y0)
    share_z_0 := Function.update D.share_z_0 k z0
    share_z_1 := Function.update D.share_z_1 k (sub_mod_p zk z0) }

/-- The function `setup_data` for dimension `kDim`. -/
def setup_data (kDim : Nat) (rnd : Nat → Nat) (D : DotData) : DotData :=
  forLoop kDim (setup_step rnd) D

/-- The true value `ak` that pass `k` of `setup_data` draws. -/
def setup_ak (rnd : Nat → Nat) (k : Nat) : Nat := get_rand_field (rnd (9 * k))

/-- The true value `bk` that pass `k` of `setup_data` draws. -/
def setup_bk (rnd : Nat → Nat) (k : Nat) : Nat := get_rand_field (rnd (9 * k + 1))

/-- The true values `xk`, `yk` that pass `k` of `setup_data` draws. -/
def setup_xk (rnd : Nat → Nat) (k : Nat) : Nat := get_rand_field (rnd (9 * k + 2))

/-- See `setup_xk`. -/
def setup_yk (rnd : Nat → Nat) (k : Nat) : Nat := get_rand_field (rnd (9 * k + 3))

/-- First inner loop of the online stage: fills `local_d`, `local_e`. -/
def dotprod_fill_local (kDim : Nat) (D : DotData) (loc : (Nat → Nat) × (Nat → Nat)) :
    (Nat → Nat) × (Nat → Nat) :=
  forLoop kDim
    (fun loc k =>
      (Function.update loc.1 k (sub_mod_p (D.share_a_0 k) (D.share_x_0 k)),
       Function.update loc.2 k (sub_mod_p (D.share_b_0 k) (D.share_y_0 k))))
    loc

/-- Body of the second inner loop of `dotprod.c`, up to the final value of `ck`. -/
def dotprod_ck (D : DotData) (local_d local_e : Nat → Nat) (k : Nat) : Nat :=
  let d1 := sub_mod_p (D.share_a_1 k) (D.share_x_1 k)
  let e1 := sub_mod_p (D.share_b_1 k) (D.share_y_1 k)
  let dk := add_mod_p (local_d k) d1
  let ek := add_mod_p (local_e k) e1
  let t1 := mul_mod_p ek (D.share_x_0 k)
  let t2 := mul_mod_p dk (D.share_y_0 k)
  let ck := add_mod_p (D.share_z_0 k) t1
  let ck := add_mod_p ck t2
  ck

/-- One iteration of the outer loop of `dotprod.c` (party 0): the value of
`final_res_share` when the inner loops are done.  `loc0` is the content of the
uninitialised arrays `local_d`, `local_e`. -/
def dotprod_kernel (kDim : Nat) (D : DotData) (loc0 : (Nat → Nat) × (Nat → Nat)) : Nat :=
  let loc := dotprod_fill_local kDim D loc0
  forLoop kDim
    (fun final_res_share k => add_mod_p final_res_share (dotprod_ck D loc.1 loc.2 k))
    0

/-- Modelled from the spec: the kernel of party 1, which `dotprod.c` does not contain
(it simulates party 0 only and keeps the party-1 statement as the commented-out line
`if (party_id == 1) ck = add_mod_p(ck, mul_mod_p(dk, ek));`).  Following §4.4,
`[c_k]_1 = [z_k]_1 + e_k·[x_k]_1 + d_k·[y_k]_1 + d_k·e_k`, with `d_k`, `e_k` rebuilt from
party 1's own differences and the ones received from party 0. -/
def dotprod_ck_party1 (D : DotData) (k : Nat) : Nat :=
  let local_d := sub_mod_p (D.share_a_1 k) (D.share_x_1 k)
  let local_e := sub_mod_p (D.share_b_1 k) (D.share_y_1 k)
  let d0 := sub_mod_p (D.share_a_0 k) (D.share_x_0 k)
  let e0 := sub_mod_p (D.share_b_0 k) (D.share_y_0 k)
  let dk := add_mod_p local_d d0
  let ek := add_mod_p local_e e0
  let t1 := mul_mod_p ek (D.share_x_1 k)
  let t2 := mul_mod_p dk (D.share_y_1 k)
  let ck := add_mod_p (D.share_z_1 k) t1
  let ck := add_mod_p ck t2
  let ck := add_mod_p ck (mul_mod_p dk ek)
  ck

/-- Modelled from the spec: party 1's share `Σ_k [c_k]_1` of the dot product (§4.4),
accumulated like `final_res_share`. -/
def dotprod_kernel_party1 (kDim : Nat) (D : DotData) : Nat :=
  forLoop kDim (fun final_res_share k => add_mod_p final_res_share (dotprod_ck_party1 D k)) 0

/-- Below index `d`, the arrays of `D` hold additive sharings in `F_p` of the vectors
`a`, `b`, `x`, `y`, and of `z` with `z_k = x_k·y_k mod p`. -/
def IsSharing (d : Nat) (a b x y : Nat → Nat) (D : DotData) : Prop :=
  ∀ k, k < d →
    (D.share_a_0 k < kPrime ∧ D.share_a_1 k < kPrime ∧
     D.share_b_0 k < kPrime ∧ D.share_b_1 k < kPrime ∧
     D.share_x_0 k < kPrime ∧ D.share_x_1 k < kPrime ∧
     D.share_y_0 k < kPrime ∧ D.share_y_1 k < kPrime ∧
     D.share_z_0 k < kPrime ∧ D.share_z_1 k < kPrime) ∧
    add_mod_p (D.share_a_0 k) (D.share_a_1 k) = a k ∧
    add_mod_p (D.share_b_0 k) (D.share_b_1 k) = b k ∧
    add_mod_p (D.share_x_0 k) (D.share_x_1 k) = x k ∧
    add_mod_p (D.share_y_0 k) (D.share_y_1 k) = y k ∧
    add_mod_p (D.share_z_0 k) (D.share_z_1 k) = mul_mod_p (x k) (y k)

instance (d : Nat) (a b x y : Nat → Nat) (D : DotData) : Decidable (IsSharing d a b x y D) := by
  unfold IsSharing; infer_instance

/-- Example data: dimension 4, `a = (1,2,3,4)`, `b = (5,6,7,8)`, triple `x = 11`, `y = 5`. -/
def exampleDot : DotData where
  share_a_0 := fun _ => 10
  share_a_1 := fun k => 18446744073709551547 + (k + 1)
  share_b_0 := fun k => k + 5
  share_b_1 := fun _ => 0
  share_x_0 := fun _ => 7
  share_x_1 := fun _ => 4
  share_y_0 := fun _ => 18446744073709551556
  share_y_1 := fun _ => 6
  share_z_0 := fun _ => 50
  share_z_1 := fun _ => 5

/-- Example stream of raw 64-bit words for the dealer. -/
def exampleRnd (i : Nat) : Nat := (i * 6364136223846793005 + 1442695040888963407) % two64

/-- The accumulation loop of `dotprod.c` (lines 146-173) with its passes taken in the
order given by the list `order`; the source runs it with `order = 0, …, kDim - 1`. -/
def dotprod_accum (D : DotData) (local_d local_e : Nat → Nat) (order : List Nat) : Nat :=
  order.foldl
    (fun final_res_share k => add_mod_p final_res_share (dotprod_ck D local_d local_e k))
    0

/-- One iteration of the outer loop of `dotprod.c` whose accumulation visits the indices
in the order `order` (the first inner loop is left as it is). -/
def dotprod_kernel_order (kDim : Nat) (D : DotData) (loc0 : (Nat → Nat) × (Nat → Nat))
    (order : List Nat) : Nat :=
  let loc := dotprod_fill_local kDim D loc0
  dotprod_accum D loc.1 loc.2 order

/-! ## `src/retrieval.c` -/

/-- The constant `kN` of `retrieval.c` (number of documents). -/
def retrieval_kN : Nat := 131072

/-- The constant `kStep` of `retrieval.c` (number of binary search steps). -/
def retrieval_kStep : Nat := 13

/-- The loop of `main` that fills `d1_buf`, `e1_buf` (lines 141-144); `bufs` is the
content of the two freshly allocated buffers. -/
def retrieval_fill_bufs (kDim : Nat) (D : DotData) (bufs : (Nat → Nat) × (Nat → Nat)) :
    (Nat → Nat) × (Nat → Nat) :=
  forLoop kDim
    (fun bufs k =>
      (Function.update bufs.1 k (sub_mod_p (D.share_a_1 k) (D.share_x_1 k)),
       Function.update bufs.2 k (sub_mod_p (D.share_b_1 k) (D.share_y_1 k))))
    bufs

/-- First inner loop of the score phase (lines 155-158): fills `local_d`, `local_e`. -/
def retrieval_fill_local (kDim : Nat) (D : DotData) (loc : (Nat → Nat) × (Nat → Nat)) :
    (Nat → Nat) × (Nat → Nat) :=
  forLoop kDim
    (fun loc k =>
      (Function.update loc.1 k (sub_mod_p (D.share_a_0 k) (D.share_x_0 k)),
       Function.update loc.2 k (sub_mod_p (D.share_b_0 k) (D.share_y_0 k))))
    loc

/-- Body of the second inner loop of the score phase (lines 162-170), up to the final
value of `ck`. -/
def retrieval_ck (D : DotData) (d1_buf e1_buf local_d local_e : Nat → Nat) (k : Nat) : Nat :=
  let d1 := d1_buf k
  let e1 := e1_buf k
  let dk := add_mod_p (local_d k) d1
  let ek := add_mod_p (local_e k) e1
  let t1 := mul_mod_p ek (D.share_x_0 k)
  let t2 := mul_mod_p dk (D.share_y_0 k)
  let ck := add_mod_p (D.share_z_0 k) t1
  let ck := add_mod_p ck t2
  ck

/-- The value of `final_res_share` at the end of pass `iter` of the score loop of
`retrieval.c` (lines 139-176).  `bufs0` is the content of `d1_buf`, `e1_buf` after
`malloc`, `loc0 iter` the content of the uninitialised arrays `local_d`, `local_e` of
pass `iter`. -/
def retrieval_score (kDim : Nat) (D : DotData) (bufs0 : (Nat → Nat) × (Nat → Nat))
    (loc0 : Nat → (Nat → Nat) × (Nat → Nat)) (iter : Nat) : Nat :=
  let bufs := retrieval_fill_bufs kDim D bufs0
  let loc := retrieval_fill_local kDim D (loc0 iter)
  forLoop kDim
    (fun final_res_share k =>
      add_mod_p final_res_share (retrieval_ck D bufs.1 bufs.2 loc.1 loc.2 k))
    0

/-- The step loop `for (int s = 0; s < kStep; ++s)` of `main` (lines 181-235) with its
body as a parameter acting on the program state; the second component counts the passes
that were run. -/
def retrieval_step_loop {σ : Type} (body : σ → Nat → σ) (st : σ) : σ × Nat :=
  forLoop retrieval_kStep (fun p s => (body p.1 s, p.2 + 1)) (st, 0)

/-! ## `src/cmp.c` -/

/-- What the dealer part of `main` computes from `r`, `xl`, `xr` (lines 129-155). -/
structure CmpGen where
  xl_p : Nat
  xr_p : Nat
  pl_val : Nat
  pr_val : Nat
  w : Nat
deriving DecidableEq

/-- The dealer part of `main`: masked thresholds, the two DCF payloads and the wrap bit. -/
def cmp_gen (r xl xr : Nat) : CmpGen :=
  let xl_p := add_mod_p xl r
  let xr_p := add_mod_p xr r
  { xl_p := xl_p
    xr_p := xr_p
    pl_val := sub64 kPrime 1
    pr_val := 1
    w := if xl_p > xr_p then 1 else 0 }

/-- The masked input `z = add_mod_p(x, r)` of the evaluation loop. -/
def cmp_z (x r : Nat) : Nat := add_mod_p x r

/-- The result `res` of one pass of the evaluation loop, from the two DCF output words
`y_l`, `y_r` of the party and its share of `w`. -/
def cmp_eval (y_l y_r w_share : Nat) : Nat := add_mod_p (add_mod_p y_l y_r) w_share

/-- The other share of `w` (`w1 = sub_mod_p(w, w0)`, "part of protocol" in `main`). -/
def cmp_w1 (w w0 : Nat) : Nat := sub_mod_p w w0

/-! ## Buffer lemmas -/

theorem leVal_leBytes (n v : Nat) : leVal (leBytes n v) = v % 256 ^ n := by
  induction n generalizing v with
  | zero => simp [leBytes, leVal, Nat.mod_one]
  | succ n ih =>
    simp only [leBytes, leVal, ih]
    rw [pow_succ, Nat.mul_comm (256 ^ n) 256, Nat.mod_mul]

theorem length_leBytes (n v : Nat) : (leBytes n v).length = n := by
  induction n generalizing v with
  | zero => rfl
  | succ n ih => simp [leBytes, ih]

theorem leBytes_lt (n v : Nat) : ∀ b ∈ leBytes n v, b < 256 := by
  induction n generalizing v with
  | zero => simp [leBytes]
  | succ n ih =>
    intro b hb
    simp only [leBytes, List.mem_cons] at hb
    rcases hb with rfl | hb
    · exact Nat.mod_lt _ (by norm_num)
    · exact ih _ b hb

theorem leVal_lt (bs : List Nat) (h : ∀ b ∈ bs, b < 256) : leVal bs < 256 ^ bs.length := by
  induction bs with
  | nil => simp [leVal]
  | cons b bs ih =>
    have hb : b < 256 := h b (List.mem_cons_self _ _)
    have ht := ih (fun c hc => h c (List.mem_cons_of_mem _ hc))
    simp only [leVal, List.length_cons, pow_succ]
    nlinarith

theorem load64_lt (buf : List Nat) (h : IsBuf buf) : load64 buf < two64 := by
  have h1 : ∀ b ∈ buf.take 8, b < 256 := fun b hb => h.2 b (List.mem_of_mem_take hb)
  have h2 := leVal_lt (buf.take 8) h1
  have h3 : (buf.take 8).length = 8 := by
    rw [List.length_take, h.1]; rfl
  rw [h3] at h2
  unfold load64 two64
  norm_num at h2 ⊢
  exact h2

theorem load64_store64 (buf : List Nat) (v : Nat) (hv : v < two64) :
    load64 (store64 buf v) = v := by
  unfold load64 store64
  rw [List.take_left' (length_leBytes 8 v), leVal_leBytes]
  apply Nat.mod_eq_of_lt
  unfold two64 at hv
  norm_num
  exact hv

theorem isBuf_store64 (buf : List Nat) (v : Nat) (h : IsBuf buf) : IsBuf (store64 buf v) := by
  refine ⟨?_, ?_⟩
  · unfold store64
    rw [List.length_append, length_leBytes, List.length_drop, h.1]
    rfl
  · intro b hb
    unfold store64 at hb
    rcases List.mem_append.mp hb with hb | hb
    · exact leBytes_lt 8 v b hb
    · exact h.2 b (List.mem_of_mem_drop hb)

theorem load64_memset_hi (buf : List Nat) (h : buf.length = kLambda) :
    load64 (memset buf 8 0 8) = load64 buf := by
  unfold load64 memset
  have h8 : (buf.take 8).length = 8 := by rw [List.length_take, h]; rfl
  rw [List.append_assoc, List.take_left' h8]

theorem drop_memset_hi (buf : List Nat) (h : buf.length = kLambda) :
    (memset buf 8 0 8).drop 8 = List.replicate 8 0 := by
  unfold memset
  have h8 : (buf.take 8).length = 8 := by rw [List.length_take, h]; rfl
  have hd : buf.drop (8 + 8) = [] := by
    apply List.drop_eq_nil_of_le
    rw [h]; decide
  rw [List.append_assoc, List.drop_left' h8, hd, List.append_nil]

theorem add64_lt (a b : Nat) : add64 a b < two64 := Nat.mod_lt _ (by decide)

theorem sub64_lt (a b : Nat) : sub64 a b < two64 := Nat.mod_lt _ (by decide)

/-- The first statement of `group_add` and of `group_neg`: the stored word is reduced once. -/
theorem canon_step (val : List Nat) (h : IsBuf val) :
    IsBuf (if load64 val ≥ kPrime then store64 val (sub64 (load64 val) kPrime) else val) ∧
    load64 (if load64 val ≥ kPrime then store64 val (sub64 (load64 val) kPrime) else val)
      = load64 val % kPrime := by
  have ha := load64_lt val h
  by_cases hc : load64 val ≥ kPrime
  · rw [if_pos hc]
    refine ⟨isBuf_store64 _ _ h, ?_⟩
    rw [load64_store64 _ _ (sub64_lt _ _)]
    unfold sub64 two64 kPrime at *
    omega
  · rw [if_neg hc]
    refine ⟨h, ?_⟩
    unfold two64 kPrime at *
    omega

/-! ## Claims on the field group -/

/-- C1: for all 16-byte buffers `v`, `w` holding arbitrary 64-bit words `a`, `b`, after
`group_add(v, w)` the low word of `v` is `(a + b) mod p`, it lies in `[0, p)`, bytes
8..15 of `v` are zero, and `w` is unchanged. -/
theorem group_add_spec (v w : List Nat) (hv : IsBuf v) (hw : IsBuf w) :
    load64 (group_add v w).1 = (load64 v + load64 w) % kPrime ∧
    load64 (group_add v w).1 < kPrime ∧
    (group_add v w).1.drop 8 = List.replicate 8 0 ∧
    (group_add v w).1.length = kLambda ∧
    (group_add v w).2 = w := by
  obtain ⟨hb1, hl1⟩ := canon_step v hv
  have ha := load64_lt v hv
  have hb := load64_lt w hw
  unfold group_add
  simp only []
  generalize (if load64 v ≥ kPrime then store64 v (sub64 (load64 v) kPrime) else v) = val1
    at hb1 hl1
  generalize hr : (if load64 w ≥ kPrime then sub64 (load64 w) kPrime else load64 w) = rhs64
  have hr' : rhs64 = load64 w % kPrime := by
    rw [← hr]
    unfold sub64 two64 kPrime at *
    split <;> omega
  generalize hx : (if load64 val1 ≥ sub64 kPrime rhs64
      then store64 val1 (add64 (load64 val1) (sub64 rhs64 kPrime))
      else store64 val1 (add64 (load64 val1) rhs64)) = val2
  have hx' : IsBuf val2 ∧ load64 val2 = (load64 v + load64 w) % kPrime := by
    rw [← hx]
    split
    · rename_i hc
      refine ⟨isBuf_store64 _ _ hb1, ?_⟩
      rw [load64_store64 _ _ (add64_lt _ _), hl1, hr']
      rw [hl1, hr'] at hc
      unfold add64 sub64 two64 kPrime at *
      omega
    · rename_i hc
      refine ⟨isBuf_store64 _ _ hb1, ?_⟩
      rw [load64_store64 _ _ (add64_lt _ _), hl1, hr']
      rw [hl1, hr'] at hc
      unfold add64 sub64 two64 kPrime at *
      omega
  obtain ⟨hb2, hl2⟩ := hx'
  have hlen : (memset val2 8 0 8).length = kLambda := by
    unfold memset
    simp only [List.length_append, List.length_take, List.length_replicate, List.length_drop,
      hb2.1]
    decide
  refine ⟨?_, ?_, drop_memset_hi _ hb2.1, hlen, trivial⟩
  · rw [load64_memset_hi _ hb2.1, hl2]
  · rw [load64_memset_hi _ hb2.1, hl2]
    exact Nat.mod_lt _ (by decide)

/-- Witness of C1: `5 + (p + 2)` (the second word non-canonical) over a dirty upper half. -/
theorem group_add_spec_witness :
    IsBuf [5, 0, 0, 0, 0, 0, 0, 0, 9, 9, 9, 9, 9, 9, 9, 9] ∧
    IsBuf [199, 255, 255, 255, 255, 255, 255, 255, 1, 2, 3, 4, 5, 6, 7, 8] ∧
    load64 (group_add [5, 0, 0, 0, 0, 0, 0, 0, 9, 9, 9, 9, 9, 9, 9, 9]
      [199, 255, 255, 255, 255, 255, 255, 255, 1, 2, 3, 4, 5, 6, 7, 8]).1
      = (load64 [5, 0, 0, 0, 0, 0, 0, 0, 9, 9, 9, 9, 9, 9, 9, 9]
          + load64 [199, 255, 255, 255, 255, 255, 255, 255, 1, 2, 3, 4, 5, 6, 7, 8]) % kPrime :=
  ⟨by decide, by decide,
    (group_add_spec [5, 0, 0, 0, 0, 0, 0, 0, 9, 9, 9, 9, 9, 9, 9, 9]
      [199, 255, 255, 255, 255, 255, 255, 255, 1, 2, 3, 4, 5, 6, 7, 8]
      (by decide) (by decide)).1⟩

/-- C2: for every 16-byte buffer `v` holding an arbitrary 64-bit word `a`, after
`group_neg(v)` the low word is `(-a) mod p`, that is `0` when `a ≡ 0 (mod p)` and
`p - (a mod p)` otherwise, and it lies in `[0, p)`. -/
theorem group_neg_value (v : List Nat) (hv : IsBuf v) :
    (load64 (group_neg v) : Int) = (-(load64 v : Int)) % (kPrime : Int) ∧
    load64 (group_neg v)
      = (if load64 v % kPrime = 0 then 0 else kPrime - load64 v % kPrime) ∧
    load64 (group_neg v) < kPrime := by
  obtain ⟨hb1, hl1⟩ := canon_step v hv
  have ha := load64_lt v hv
  have key : load64 (group_neg v)
      = (if load64 v % kPrime = 0 then 0 else kPrime - load64 v % kPrime) := by
    unfold group_neg
    simp only []
    generalize (if load64 v ≥ kPrime then store64 v (sub64 (load64 v) kPrime) else v) = val1
      at hb1 hl1
    by_cases h0 : load64 val1 = 0
    · rw [if_pos h0, h0, if_pos (by rw [← hl1, h0])]
    · rw [if_neg h0, if_neg (by rw [← hl1]; exact h0)]
      have hb2 := isBuf_store64 val1 (sub64 kPrime (load64 val1)) hb1
      rw [load64_memset_hi _ hb2.1, load64_store64 _ _ (sub64_lt _ _), hl1]
      have hlt : load64 v % kPrime < kPrime := Nat.mod_lt _ (by decide)
      generalize load64 v % kPrime = m at hlt
      unfold sub64 two64 kPrime at *
      omega
  refine ⟨?_, key, ?_⟩
  · rw [key]
    have hlt : load64 v % kPrime < kPrime := Nat.mod_lt _ (by decide)
    split
    · rename_i h0
      have : ((load64 v % kPrime : Nat) : Int) = 0 := by rw [h0]; rfl
      unfold kPrime at *
      omega
    · rename_i h0
      unfold kPrime at *
      omega
  · rw [key]
    have hlt : load64 v % kPrime < kPrime := Nat.mod_lt _ (by decide)
    split
    · decide
    · omega

/-- Witness of C2 at the non-canonical word `p + 2`. -/
theorem group_neg_value_witness :
    IsBuf [199, 255, 255, 255, 255, 255, 255, 255, 1, 2, 3, 4, 5, 6, 7, 8] ∧
    load64 (group_neg [199, 255, 255, 255, 255, 255, 255, 255, 1, 2, 3, 4, 5, 6, 7, 8])
      < kPrime :=
  ⟨by decide,
    (group_neg_value [199, 255, 255, 255, 255, 255, 255, 255, 1, 2, 3, 4, 5, 6, 7, 8]
      (by decide)).2.2⟩

/-- What `group_neg` does to the upper half: cleared when the word is not `0 mod p`,
left as it was otherwise. -/
theorem group_neg_upper (v : List Nat) (hv : IsBuf v) :
    (load64 v % kPrime ≠ 0 → (group_neg v).drop 8 = List.replicate 8 0) ∧
    (load64 v % kPrime = 0 → (group_neg v).drop 8 = v.drop 8) := by
  obtain ⟨hb1, hl1⟩ := canon_step v hv
  have hd : (if load64 v ≥ kPrime then store64 v (sub64 (load64 v) kPrime) else v).drop 8
      = v.drop 8 := by
    split
    · unfold store64
      rw [List.drop_left' (length_leBytes 8 _)]
    · rfl
  unfold group_neg
  simp only []
  generalize (if load64 v ≥ kPrime then store64 v (sub64 (load64 v) kPrime) else v) = val1
    at hb1 hl1 hd
  refine ⟨fun h => ?_, fun h => ?_⟩
  · rw [if_neg (by rw [hl1]; exact h)]
    exact drop_memset_hi _ (isBuf_store64 _ _ hb1).1
  · rw [if_pos (by rw [hl1]; exact h)]
    exact hd

/-- What `group_zero` does: the low word becomes 0, the upper half is left as it was. -/
theorem group_zero_spec (v : List Nat) :
    load64 (group_zero v) = 0 ∧ (group_zero v).drop 8 = v.drop 8 := by
  unfold group_zero memset load64
  refine ⟨?_, ?_⟩
  · rw [List.take_zero, List.nil_append,
      List.take_left' (List.length_replicate 8 0)]
    rfl
  · rw [List.take_zero, List.nil_append,
      List.drop_left' (List.length_replicate 8 0)]

/-- C3 (failing input): the word `0` makes `group_neg` return before its `memset`, so a
non-zero byte 8 survives the call. -/
theorem group_neg_zero_keeps_upper :
    IsBuf [0, 0, 0, 0, 0, 0, 0, 0, 1, 0, 0, 0, 0, 0, 0, 0] ∧
    group_neg [0, 0, 0, 0, 0, 0, 0, 0, 1, 0, 0, 0, 0, 0, 0, 0]
      = [0, 0, 0, 0, 0, 0, 0, 0, 1, 0, 0, 0, 0, 0, 0, 0] ∧
    (group_neg [0, 0, 0, 0, 0, 0, 0, 0, 1, 0, 0, 0, 0, 0, 0, 0]).drop 8
      ≠ List.replicate 8 0 := by
  decide

/-- C4 (failing input): `group_zero` writes eight bytes only, so bytes 8..15 keep their
former contents. -/
theorem group_zero_keeps_upper :
    IsBuf [1, 2, 3, 4, 5, 6, 7, 8, 255, 255, 255, 255, 255, 255, 255, 255] ∧
    group_zero [1, 2, 3, 4, 5, 6, 7, 8, 255, 255, 255, 255, 255, 255, 255, 255]
      = [0, 0, 0, 0, 0, 0, 0, 0, 255, 255, 255, 255, 255, 255, 255, 255] ∧
    (group_zero [1, 2, 3, 4, 5, 6, 7, 8, 255, 255, 255, 255, 255, 255, 255, 255]).drop 8
      ≠ List.replicate 8 0 := by
  decide

/-! ## Field helpers: lemmas -/

theorem add_mod_p_eq (a b : Nat) (ha : a < two64) (hb : b < two64) :
    add_mod_p a b = (a + b) % kPrime := by
  unfold add_mod_p two128 kPrime two64 at *
  omega

theorem add_mod_p_lt (a b : Nat) : add_mod_p a b < kPrime := by
  unfold add_mod_p two128 kPrime two64
  omega

theorem sub_mod_p_eq (a b : Nat) (ha : a < two64) (hb : b ≤ a + kPrime) :
    sub_mod_p a b = (a + kPrime - b) % kPrime := by
  unfold sub_mod_p two128 kPrime two64 at *
  omega

theorem sub_mod_p_lt (a b : Nat) : sub_mod_p a b < kPrime := by
  unfold sub_mod_p two128 kPrime two64
  omega

theorem mul_lt_two128 (a b : Nat) (ha : a < two64) (hb : b < two64) : a * b < two128 := by
  have h := Nat.mul_lt_mul'' ha hb
  have e : two64 * two64 = two128 := by decide
  rw [e] at h
  exact h

theorem mul_mod_p_eq (a b : Nat) (ha : a < two64) (hb : b < two64) :
    mul_mod_p a b = (a * b) % kPrime := by
  have h := mul_lt_two128 a b ha hb
  unfold mul_mod_p
  rw [Nat.mod_eq_of_lt h]
  apply Nat.mod_eq_of_lt
  have : a * b % kPrime < kPrime := Nat.mod_lt _ (by decide)
  unfold kPrime two64 at *
  omega

theorem mul_mod_p_lt (a b : Nat) : mul_mod_p a b < kPrime := by
  unfold mul_mod_p
  have : a * b % two128 % kPrime < kPrime := Nat.mod_lt _ (by decide)
  generalize a * b % two128 % kPrime = m at this
  unfold kPrime two64 at *
  omega

theorem kPrime_lt_two64 : kPrime < two64 := by decide

/-! ## Claims on the field helpers -/

/-- C5: for all `a`, `b` in `[0, p)` the three helpers land in `[0, p)` and equal
`(a + b) mod p`, `(a - b) mod p` and `(a * b) mod p`; the 128-bit intermediates
`a + b`, `a + p - b` and `a * b` neither overflow nor underflow. -/
theorem field_ops_closed_correct (a b : Nat) (ha : a < kPrime) (hb : b < kPrime) :
    (add_mod_p a b < kPrime ∧ sub_mod_p a b < kPrime ∧ mul_mod_p a b < kPrime) ∧
    add_mod_p a b = (a + b) % kPrime ∧
    (sub_mod_p a b : Int) = ((a : Int) - (b : Int)) % (kPrime : Int) ∧
    mul_mod_p a b = (a * b) % kPrime ∧
    (a + b < two128 ∧ a + kPrime < two128 ∧ b ≤ a + kPrime ∧ a * b < two128) := by
  have ha' : a < two64 := lt_trans ha kPrime_lt_two64
  have hb' : b < two64 := lt_trans hb kPrime_lt_two64
  refine ⟨⟨add_mod_p_lt a b, sub_mod_p_lt a b, mul_mod_p_lt a b⟩,
    add_mod_p_eq a b ha' hb', ?_, mul_mod_p_eq a b ha' hb', ?_⟩
  · rw [sub_mod_p_eq a b ha' (by omega)]
    unfold kPrime at *
    omega
  · refine ⟨?_, ?_, by omega, mul_lt_two128 a b ha' hb'⟩
    · unfold kPrime two128 at *
      omega
    · unfold kPrime two128 at *
      omega

/-- Witness of C5 at `a = p - 1`, `b = p - 2`. -/
theorem field_ops_closed_correct_witness :
    add_mod_p 18446744073709551556 18446744073709551555
      = (18446744073709551556 + 18446744073709551555) % kPrime :=
  (field_ops_closed_correct 18446744073709551556 18446744073709551555
    (by decide) (by decide)).2.1

/-! ## Loops -/

theorem forLoop_zero {σ : Type} (body : σ → Nat → σ) (s : σ) : forLoop 0 body s = s := rfl

theorem forLoop_succ {σ : Type} (n : Nat) (body : σ → Nat → σ) (s : σ) :
    forLoop (n + 1) body s = body (forLoop n body s) n := by
  unfold forLoop
  rw [List.range_succ, List.foldl_append]
  rfl

/-- After the first inner loop, `local_d[k]` and `local_e[k]` hold party 0's differences
for every `k < kDim`. -/
theorem dotprod_fill_local_eq (kDim : Nat) (D : DotData) (loc0 : (Nat → Nat) × (Nat → Nat))
    (k : Nat) (hk : k < kDim) :
    (dotprod_fill_local kDim D loc0).1 k = sub_mod_p (D.share_a_0 k) (D.share_x_0 k) ∧
    (dotprod_fill_local kDim D loc0).2 k = sub_mod_p (D.share_b_0 k) (D.share_y_0 k) := by
  unfold dotprod_fill_local
  induction kDim with
  | zero => omega
  | succ n ih =>
    rw [forLoop_succ]
    by_cases hkn : k = n
    · subst hkn
      simp only [Function.update_same, and_self]
    · have hlt : k < n := by omega
      simp only [Function.update_noteq hkn]
      exact ih hlt

/-- The accumulation `final_res_share = add_mod_p(final_res_share, c k)` stays below `p`. -/
theorem accum_lt (n : Nat) (c : Nat → Nat) :
    forLoop n (fun acc k => add_mod_p acc (c k)) 0 < kPrime := by
  cases n with
  | zero => rw [forLoop_zero]; decide
  | succ n => rw [forLoop_succ]; exact add_mod_p_lt _ _

/-! ## The field helpers in `ZMod kPrime` -/

theorem cast_add_mod_p (a b : Nat) (ha : a < two64) (hb : b < two64) :
    ((add_mod_p a b : Nat) : ZMod kPrime) = (a : ZMod kPrime) + (b : ZMod kPrime) := by
  rw [add_mod_p_eq a b ha hb, ZMod.natCast_mod, Nat.cast_add]

theorem cast_sub_mod_p (a b : Nat) (ha : a < two64) (hb : b ≤ a + kPrime) :
    ((sub_mod_p a b : Nat) : ZMod kPrime) = (a : ZMod kPrime) - (b : ZMod kPrime) := by
  rw [sub_mod_p_eq a b ha hb, ZMod.natCast_mod, Nat.cast_sub hb, Nat.cast_add,
    ZMod.natCast_self, add_zero]

theorem cast_mul_mod_p (a b : Nat) (ha : a < two64) (hb : b < two64) :
    ((mul_mod_p a b : Nat) : ZMod kPrime) = (a : ZMod kPrime) * (b : ZMod kPrime) := by
  rw [mul_mod_p_eq a b ha hb, ZMod.natCast_mod, Nat.cast_mul]

theorem lt_two64_of_lt_kPrime {a : Nat} (h : a < kPrime) : a < two64 :=
  lt_trans h kPrime_lt_two64

/-- The accumulation loop computes the sum of the `c k` in `F_p`. -/
theorem cast_accum (n : Nat) (c : Nat → Nat) (hc : ∀ k, k < n → c k < two64) :
    ((forLoop n (fun acc k => add_mod_p acc (c k)) 0 : Nat) : ZMod kPrime)
      = ∑ k ∈ Finset.range n, (c k : ZMod kPrime) := by
  induction n with
  | zero => simp [forLoop_zero]
  | succ n ih =>
    rw [forLoop_succ, Finset.sum_range_succ,
      cast_add_mod_p _ _ (lt_two64_of_lt_kPrime (accum_lt n c)) (hc n (by omega)),
      ih (fun k hk => hc k (by omega))]

/-- Two accumulation loops that add equal terms below `n` give the same result. -/
theorem accum_congr (n : Nat) (c c' : Nat → Nat) (h : ∀ k, k < n → c k = c' k) :
    forLoop n (fun acc k => add_mod_p acc (c k)) 0
      = forLoop n (fun acc k => add_mod_p acc (c' k)) 0 := by
  induction n with
  | zero => rfl
  | succ n ih =>
    rw [forLoop_succ, forLoop_succ, ih (fun k hk => h k (by omega)), h n (by omega)]

/-! ## Beaver dot product -/

/-- For one index, the two parties' terms `[c_k]_0 + [c_k]_1` make `a_k·b_k` in `F_p`. -/
theorem cast_ck_sum (d : Nat) (a b x y : Nat → Nat) (D : DotData)
    (h : IsSharing d a b x y D) (k : Nat) (hk : k < d) :
    ((dotprod_ck D (fun j => sub_mod_p (D.share_a_0 j) (D.share_x_0 j))
        (fun j => sub_mod_p (D.share_b_0 j) (D.share_y_0 j)) k : Nat) : ZMod kPrime)
      + ((dotprod_ck_party1 D k : Nat) : ZMod kPrime)
      = ((a k * b k : Nat) : ZMod kPrime) := by
  obtain ⟨⟨ha0, ha1, hb0, hb1, hx0, hx1, hy0, hy1, hz0, hz1⟩, ha, hb, hx, hy, hz⟩ := h k hk
  have L : ∀ {n : Nat}, n < kPrime → n < two64 := fun h => lt_two64_of_lt_kPrime h
  have S : ∀ {m n : Nat}, n < kPrime → n ≤ m + kPrime := fun h => by omega
  have ea := congrArg (Nat.cast : Nat → ZMod kPrime) ha
  have eb := congrArg (Nat.cast : Nat → ZMod kPrime) hb
  have ex := congrArg (Nat.cast : Nat → ZMod kPrime) hx
  have ey := congrArg (Nat.cast : Nat → ZMod kPrime) hy
  have ez := congrArg (Nat.cast : Nat → ZMod kPrime) hz
  have hxk : x k < kPrime := by rw [← hx]; exact add_mod_p_lt _ _
  have hyk : y k < kPrime := by rw [← hy]; exact add_mod_p_lt _ _
  rw [cast_add_mod_p _ _ (L ha0) (L ha1)] at ea
  rw [cast_add_mod_p _ _ (L hb0) (L hb1)] at eb
  rw [cast_add_mod_p _ _ (L hx0) (L hx1)] at ex
  rw [cast_add_mod_p _ _ (L hy0) (L hy1)] at ey
  rw [cast_add_mod_p _ _ (L hz0) (L hz1), cast_mul_mod_p _ _ (L hxk) (L hyk)] at ez
  unfold dotprod_ck dotprod_ck_party1
  simp only []
  rw [cast_add_mod_p _ _ (L (add_mod_p_lt _ _)) (L (mul_mod_p_lt _ _)),
    cast_add_mod_p _ _ (L hz0) (L (mul_mod_p_lt _ _)),
    cast_mul_mod_p _ _ (L (add_mod_p_lt _ _)) (L hx0),
    cast_mul_mod_p _ _ (L (add_mod_p_lt _ _)) (L hy0),
    cast_add_mod_p _ _ (L (add_mod_p_lt _ _)) (L (mul_mod_p_lt _ _)),
    cast_add_mod_p _ _ (L (add_mod_p_lt _ _)) (L (mul_mod_p_lt _ _)),
    cast_add_mod_p _ _ (L hz1) (L (mul_mod_p_lt _ _)),
    cast_mul_mod_p _ _ (L (add_mod_p_lt _ _)) (L hx1),
    cast_mul_mod_p _ _ (L (add_mod_p_lt _ _)) (L hy1),
    cast_mul_mod_p _ _ (L (add_mod_p_lt _ _)) (L (add_mod_p_lt _ _)),
    cast_add_mod_p _ _ (L (sub_mod_p_lt _ _)) (L (sub_mod_p_lt _ _)),
    cast_add_mod_p _ _ (L (sub_mod_p_lt _ _)) (L (sub_mod_p_lt _ _)),
    cast_add_mod_p _ _ (L (sub_mod_p_lt _ _)) (L (sub_mod_p_lt _ _)),
    cast_add_mod_p _ _ (L (sub_mod_p_lt _ _)) (L (sub_mod_p_lt _ _)),
    cast_sub_mod_p _ _ (L ha0) (S hx0), cast_sub_mod_p _ _ (L ha1) (S hx1),
    cast_sub_mod_p _ _ (L hb0) (S hy0), cast_sub_mod_p _ _ (L hb1) (S hy1),
    Nat.cast_mul, ← ea, ← eb]
  linear_combination ez
    - ((D.share_y_0 k : ZMod kPrime) + (D.share_y_1 k : ZMod kPrime)) * ex
    - (x k : ZMod kPrime) * ey

/-- C6: for every dimension `d` and every additive sharing in `F_p` of `a`, `b`, `x`, `y`
and of `z = x·y`, the party-0 share computed by the kernel of `dotprod.c` plus the
party-1 share (same formula on party 1's shares, with the extra `d_k·e_k` term) is
congruent to `Σ_k a_k·b_k` modulo `p`. -/
theorem beaver_dotprod_correct (d : Nat) (a b x y : Nat → Nat) (D : DotData)
    (loc0 : (Nat → Nat) × (Nat → Nat)) (h : IsSharing d a b x y D) :
    (dotprod_kernel d D loc0 + dotprod_kernel_party1 d D) % kPrime
      = (∑ k ∈ Finset.range d, a k * b k) % kPrime := by
  rw [← ZMod.natCast_eq_natCast_iff', Nat.cast_add, Nat.cast_sum]
  have e0 : dotprod_kernel d D loc0
      = forLoop d (fun acc k => add_mod_p acc
          (dotprod_ck D (fun j => sub_mod_p (D.share_a_0 j) (D.share_x_0 j))
            (fun j => sub_mod_p (D.share_b_0 j) (D.share_y_0 j)) k)) 0 := by
    unfold dotprod_kernel
    apply accum_congr
    intro k hk
    obtain ⟨h1, h2⟩ := dotprod_fill_local_eq d D loc0 k hk
    unfold dotprod_ck
    simp only [h1, h2]
  rw [e0]
  unfold dotprod_kernel_party1
  rw [cast_accum, cast_accum, ← Finset.sum_add_distrib]
  · apply Finset.sum_congr rfl
    intro k hk
    exact cast_ck_sum d a b x y D h k (Finset.mem_range.mp hk)
  · intro k _
    unfold dotprod_ck_party1
    exact lt_two64_of_lt_kPrime (add_mod_p_lt _ _)
  · intro k _
    unfold dotprod_ck
    exact lt_two64_of_lt_kPrime (add_mod_p_lt _ _)

/-- Witness of C6: `a = (1,2,3,4)`, `b = (5,6,7,8)` shared as in `exampleDot`. -/
theorem beaver_dotprod_correct_witness :
    IsSharing 4 (fun k => k + 1) (fun k => k + 5) (fun _ => 11) (fun _ => 5) exampleDot ∧
    (dotprod_kernel 4 exampleDot (fun _ => 0, fun _ => 0)
        + dotprod_kernel_party1 4 exampleDot) % kPrime
      = (∑ k ∈ Finset.range 4, (k + 1) * (k + 5)) % kPrime :=
  ⟨by decide,
    beaver_dotprod_correct 4 (fun k => k + 1) (fun k => k + 5) (fun _ => 11) (fun _ => 5)
      exampleDot (fun _ => 0, fun _ => 0) (by decide)⟩

/-! ## The dealer -/

theorem get_rand_field_lt (r : Nat) (hr : r < two64) : get_rand_field r < kPrime := by
  unfold get_rand_field sub64 two64 kPrime at *
  split <;> omega

/-- The second share written by the dealer completes the first one to `v`. -/
theorem share_reconstruct (v s0 : Nat) (hv : v < kPrime) (hs : s0 < kPrime) :
    add_mod_p s0 (sub_mod_p v s0) = v ∧ sub_mod_p v s0 < kPrime := by
  refine ⟨?_, sub_mod_p_lt _ _⟩
  rw [add_mod_p_eq _ _ (lt_two64_of_lt_kPrime hs) (lt_two64_of_lt_kPrime (sub_mod_p_lt _ _)),
    sub_mod_p_eq _ _ (lt_two64_of_lt_kPrime hv) (by omega)]
  unfold kPrime at *
  omega

/-- Entry `k < kDim` of every array is the one written by pass `k` of `setup_data`. -/
theorem setup_data_at (kDim : Nat) (rnd : Nat → Nat) (D0 : DotData) (k : Nat)
    (hk : k < kDim) :
    (setup_data kDim rnd D0).share_a_0 k = get_rand_field (rnd (9 * k + 4)) ∧
    (setup_data kDim rnd D0).share_a_1 k
      = sub_mod_p (get_rand_field (rnd (9 * k))) (get_rand_field (rnd (9 * k + 4))) ∧
    (setup_data kDim rnd D0).share_b_0 k = get_rand_field (rnd (9 * k + 5)) ∧
    (setup_data kDim rnd D0).share_b_1 k
      = sub_mod_p (get_rand_field (rnd (9 * k + 1))) (get_rand_field (rnd (9 * k + 5))) ∧
    (setup_data kDim rnd D0).share_x_0 k = get_rand_field (rnd (9 * k + 6)) ∧
    (setup_data kDim rnd D0).share_x_1 k
      = sub_mod_p (get_rand_field (rnd (9 * k + 2))) (get_rand_field (rnd (9 * k + 6))) ∧
    (setup_data kDim rnd D0).share_y_0 k = get_rand_field (rnd (9 * k + 7)) ∧
    (setup_data kDim rnd D0).share_y_1 k
      = sub_mod_p (get_rand_field (rnd (9 * k + 3))) (get_rand_field (rnd (9 * k + 7))) ∧
    (setup_data kDim rnd D0).share_z_0 k = get_rand_field (rnd (9 * k + 8)) ∧
    (setup_data kDim rnd D0).share_z_1 k
      = sub_mod_p (mul_mod_p (get_rand_field (rnd (9 * k + 2)))
          (get_rand_field (rnd (9 * k + 3)))) (get_rand_field (rnd (9 * k + 8))) := by
  unfold setup_data
  induction kDim with
  | zero => omega
  | succ n ih =>
    rw [forLoop_succ]
    by_cases hkn : k = n
    · subst hkn
      simp only [setup_step, Function.update_same, and_self]
    · have hlt : k < n := by omega
      simp only [setup_step, Function.update_noteq hkn]
      exact ih hlt

/-- C8: for every true value `v` and first share `s0` in `[0, p)` the second share
`s1 = sub_mod_p(v, s0)` lies in `[0, p)` and `add_mod_p(s0, s1) = v`; in the arrays
written by `setup_data` every share lies in `[0, p)`, every second share is
`sub_mod_p` of the true value and the first share, the shares of `a`, `b`, `x`, `y`
reconstruct to the true values and the shares of `z` to `mul_mod_p(x, y)`, hence to
`x·y mod p` for the reconstructed `x` and `y`. -/
theorem dealer_shares_reconstruct (v s0 : Nat) (hv : v < kPrime) (hs : s0 < kPrime)
    (kDim : Nat) (rnd : Nat → Nat) (D0 : DotData) (hr : ∀ i, rnd i < two64)
    (k : Nat) (hk : k < kDim) :
    (add_mod_p s0 (sub_mod_p v s0) = v ∧ sub_mod_p v s0 < kPrime) ∧
    (add_mod_p ((setup_data kDim rnd D0).share_x_0 k) ((setup_data kDim rnd D0).share_x_1 k)
        = setup_xk rnd k ∧
     add_mod_p ((setup_data kDim rnd D0).share_y_0 k) ((setup_data kDim rnd D0).share_y_1 k)
        = setup_yk rnd k ∧
     add_mod_p ((setup_data kDim rnd D0).share_z_0 k) ((setup_data kDim rnd D0).share_z_1 k)
        = mul_mod_p (setup_xk rnd k) (setup_yk rnd k)) ∧
    add_mod_p ((setup_data kDim rnd D0).share_z_0 k) ((setup_data kDim rnd D0).share_z_1 k)
      = (add_mod_p ((setup_data kDim rnd D0).share_x_0 k)
            ((setup_data kDim rnd D0).share_x_1 k)
          * add_mod_p ((setup_data kDim rnd D0).share_y_0 k)
            ((setup_data kDim rnd D0).share_y_1 k)) % kPrime ∧
    (add_mod_p ((setup_data kDim rnd D0).share_a_0 k) ((setup_data kDim rnd D0).share_a_1 k)
        = setup_ak rnd k ∧
     add_mod_p ((setup_data kDim rnd D0).share_b_0 k) ((setup_data kDim rnd D0).share_b_1 k)
        = setup_bk rnd k) ∧
    ((setup_data kDim rnd D0).share_a_1 k
        = sub_mod_p (setup_ak rnd k) ((setup_data kDim rnd D0).share_a_0 k) ∧
     (setup_data kDim rnd D0).share_b_1 k
        = sub_mod_p (setup_bk rnd k) ((setup_data kDim rnd D0).share_b_0 k) ∧
     (setup_data kDim rnd D0).share_x_1 k
        = sub_mod_p (setup_xk rnd k) ((setup_data kDim rnd D0).share_x_0 k) ∧
     (setup_data kDim rnd D0).share_y_1 k
        = sub_mod_p (setup_yk rnd k) ((setup_data kDim rnd D0).share_y_0 k) ∧
     (setup_data kDim rnd D0).share_z_1 k
        = sub_mod_p (mul_mod_p (setup_xk rnd k) (setup_yk rnd k))
            ((setup_data kDim rnd D0).share_z_0 k)) ∧
    ((setup_data kDim rnd D0).share_a_0 k < kPrime ∧
     (setup_data kDim rnd D0).share_a_1 k < kPrime ∧
     (setup_data kDim rnd D0).share_b_0 k < kPrime ∧
     (setup_data kDim rnd D0).share_b_1 k < kPrime ∧
     (setup_data kDim rnd D0).share_x_0 k < kPrime ∧
     (setup_data kDim rnd D0).share_x_1 k < kPrime ∧
     (setup_data kDim rnd D0).share_y_0 k < kPrime ∧
     (setup_data kDim rnd D0).share_y_1 k < kPrime ∧
     (setup_data kDim rnd D0).share_z_0 k < kPrime ∧
     (setup_data kDim rnd D0).share_z_1 k < kPrime) := by
  obtain ⟨ha0, ha1, hb0, hb1, hx0, hx1, hy0, hy1, hz0, hz1⟩ :=
    setup_data_at kDim rnd D0 k hk
  have G : ∀ i, get_rand_field (rnd i) < kPrime := fun i => get_rand_field_lt _ (hr i)
  have ea := (share_reconstruct _ _ (G (9 * k)) (G (9 * k + 4))).1
  have eb := (share_reconstruct _ _ (G (9 * k + 1)) (G (9 * k + 5))).1
  have ex := (share_reconstruct _ _ (G (9 * k + 2)) (G (9 * k + 6))).1
  have ey := (share_reconstruct _ _ (G (9 * k + 3)) (G (9 * k + 7))).1
  have ez := (share_reconstruct _ _
    (mul_mod_p_lt (get_rand_field (rnd (9 * k + 2))) (get_rand_field (rnd (9 * k + 3))))
    (G (9 * k + 8))).1
  rw [ha0, ha1, hb0, hb1, hx0, hx1, hy0, hy1, hz0, hz1, ea, eb, ex, ey, ez]
  refine ⟨share_reconstruct v s0 hv hs, ⟨rfl, rfl, rfl⟩, ?_, ⟨rfl, rfl⟩,
    ⟨rfl, rfl, rfl, rfl, rfl⟩,
    ⟨G _, sub_mod_p_lt _ _, G _, sub_mod_p_lt _ _, G _, sub_mod_p_lt _ _, G _,
      sub_mod_p_lt _ _, G _, sub_mod_p_lt _ _⟩⟩
  exact mul_mod_p_eq _ _ (lt_two64_of_lt_kPrime (G _)) (lt_two64_of_lt_kPrime (G _))

/-- Witness of C8: `v = 3`, `s0 = 7`, and entry 1 of a three-entry deal, whose shares of
`a`, `b` reconstruct to the drawn values and whose shares of `z` to `x·y mod p`. -/
theorem dealer_shares_reconstruct_witness :
    (add_mod_p 7 (sub_mod_p 3 7) = 3 ∧ sub_mod_p 3 7 < kPrime) ∧
    (add_mod_p ((setup_data 3 exampleRnd exampleDot).share_a_0 1)
        ((setup_data 3 exampleRnd exampleDot).share_a_1 1) = setup_ak exampleRnd 1 ∧
     add_mod_p ((setup_data 3 exampleRnd exampleDot).share_b_0 1)
        ((setup_data 3 exampleRnd exampleDot).share_b_1 1) = setup_bk exampleRnd 1) ∧
    add_mod_p ((setup_data 3 exampleRnd exampleDot).share_z_0 1)
        ((setup_data 3 exampleRnd exampleDot).share_z_1 1)
      = (add_mod_p ((setup_data 3 exampleRnd exampleDot).share_x_0 1)
            ((setup_data 3 exampleRnd exampleDot).share_x_1 1)
          * add_mod_p ((setup_data 3 exampleRnd exampleDot).share_y_0 1)
            ((setup_data 3 exampleRnd exampleDot).share_y_1 1)) % kPrime :=
  ⟨(dealer_shares_reconstruct 3 7 (by decide) (by decide) 3 exampleRnd exampleDot
      (fun _ => Nat.mod_lt _ (by decide)) 1 (by decide)).1,
   (dealer_shares_reconstruct 3 7 (by decide) (by decide) 3 exampleRnd exampleDot
      (fun _ => Nat.mod_lt _ (by decide)) 1 (by decide)).2.2.2.1,
   (dealer_shares_reconstruct 3 7 (by decide) (by decide) 3 exampleRnd exampleDot
      (fun _ => Nat.mod_lt _ (by decide)) 1 (by decide)).2.2.1⟩

/-! ## Cmp -/

/-- C10: for `r` and thresholds `x_L ≤ x_R` in `[0, p)` the dealer's wrap bit is 1 exactly
when `x_L + r < p ≤ x_R + r`; otherwise it is 0 and the masked thresholds are ordered. -/
theorem wrap_bit_exact (r xl xr : Nat) (hr : r < kPrime) (hl : xl < kPrime)
    (hR : xr < kPrime) (hle : xl ≤ xr) :
    (cmp_gen r xl xr).w = (if add_mod_p xl r > add_mod_p xr r then 1 else 0) ∧
    ((cmp_gen r xl xr).w = 1 ↔ (xl + r < kPrime ∧ kPrime ≤ xr + r)) ∧
    (¬ (xl + r < kPrime ∧ kPrime ≤ xr + r) →
      (cmp_gen r xl xr).w = 0 ∧ add_mod_p xl r ≤ add_mod_p xr r) := by
  have hr' := lt_two64_of_lt_kPrime hr
  have hl' := lt_two64_of_lt_kPrime hl
  have hR' := lt_two64_of_lt_kPrime hR
  unfold cmp_gen
  simp only []
  rw [add_mod_p_eq _ _ hl' hr', add_mod_p_eq _ _ hR' hr']
  unfold kPrime at *
  refine ⟨trivial, ?_, ?_⟩
  · split <;> omega
  · intro h
    split <;> omega

/-- Witness of C10 in the wrap regime: `x_L = 10`, `x_R = 100`, `r = p - 50`. -/
theorem wrap_bit_exact_witness :
    (cmp_gen 18446744073709551507 10 100).w = 1 ↔
      (10 + 18446744073709551507 < kPrime ∧ kPrime ≤ 100 + 18446744073709551507) :=
  (wrap_bit_exact 18446744073709551507 10 100 (by decide) (by decide) (by decide)
    (by decide)).2.1

/-- C7 as stated fails at the left end point: with `x = x_L = 100`, `x_R = 200`, `r = 0`
(so `w = 0`) and DCF outputs that reconstruct to `(p-1)·[z < x_L']` = 0 and
`1·[z < x_R']` = 1, the two Cmp outputs reconstruct to 1, although `x_L < x` is false. -/
theorem cmp_open_interval_counterexample :
    ((100 < kPrime ∧ 0 < kPrime ∧ 200 < kPrime ∧ 100 ≤ 200) ∧
     add_mod_p 0 0
       = (if cmp_z 100 0 < (cmp_gen 0 100 200).xl_p then (cmp_gen 0 100 200).pl_val else 0) ∧
     add_mod_p 1 0
       = (if cmp_z 100 0 < (cmp_gen 0 100 200).xr_p then (cmp_gen 0 100 200).pr_val else 0)) ∧
    add_mod_p (cmp_eval 0 1 0) (cmp_eval 0 0 (cmp_w1 (cmp_gen 0 100 200).w 0)) = 1 ∧
    add_mod_p (cmp_eval 0 1 0) (cmp_eval 0 0 (cmp_w1 (cmp_gen 0 100 200).w 0))
      ≠ (if 100 < 100 ∧ 100 < 200 then 1 else 0) := by
  decide

theorem eq_of_cast_eq {n m : Nat} (hn : n < kPrime) (hm : m < kPrime)
    (h : (n : ZMod kPrime) = (m : ZMod kPrime)) : n = m := by
  have h' := (ZMod.natCast_eq_natCast_iff' n m kPrime).mp h
  rwa [Nat.mod_eq_of_lt hn, Nat.mod_eq_of_lt hm] at h'

/-- The sum of the two parties' results is the sum of the three reconstructed values. -/
theorem recon_eq (yl0 yl1 yr0 yr1 w0 w : Nat) (hyl0 : yl0 < two64) (hyl1 : yl1 < two64)
    (hyr0 : yr0 < two64) (hyr1 : yr1 < two64) (hw0 : w0 < kPrime) (hw : w < kPrime) :
    add_mod_p (cmp_eval yl0 yr0 w0) (cmp_eval yl1 yr1 (cmp_w1 w w0))
      = (add_mod_p yl0 yl1 + add_mod_p yr0 yr1 + w) % kPrime := by
  have L : ∀ {n : Nat}, n < kPrime → n < two64 := fun h => lt_two64_of_lt_kPrime h
  apply eq_of_cast_eq (add_mod_p_lt _ _) (Nat.mod_lt _ (by decide))
  unfold cmp_eval cmp_w1
  rw [cast_add_mod_p _ _ (L (add_mod_p_lt _ _)) (L (add_mod_p_lt _ _)),
    cast_add_mod_p _ _ (L (add_mod_p_lt _ _)) (L hw0),
    cast_add_mod_p _ _ (L (add_mod_p_lt _ _)) (L (sub_mod_p_lt _ _)),
    cast_add_mod_p _ _ hyl0 hyr0, cast_add_mod_p _ _ hyl1 hyr1,
    cast_sub_mod_p _ _ (L hw) (by omega),
    ZMod.natCast_mod, Nat.cast_add, Nat.cast_add,
    cast_add_mod_p _ _ hyl0 hyl1, cast_add_mod_p _ _ hyr0 hyr1]
  ring

theorem mod_kPrime_cases (n : Nat) (h : n < 2 * kPrime) :
    (n < kPrime ∧ n % kPrime = n) ∨ (kPrime ≤ n ∧ n % kPrime + kPrime = n) := by
  unfold kPrime at *
  omega

/-- C7 (amended): for `x`, `r`, `x_L ≤ x_R` in `F_p`, a share `w0` in `F_p` and DCF output
words that reconstruct to `(p-1)·[z < x_L']` and `1·[z < x_R']`, the two parties' Cmp
outputs reconstruct to 1 if `x_L ≤ x < x_R` and to 0 otherwise, whether the masked
interval wraps or not. -/
theorem cmp_correct_half_open (x r xl xr : Nat) (hx : x < kPrime) (hr : r < kPrime)
    (hl : xl < kPrime) (hR : xr < kPrime) (hle : xl ≤ xr)
    (yl0 yl1 yr0 yr1 w0 : Nat) (hyl0 : yl0 < two64) (hyl1 : yl1 < two64)
    (hyr0 : yr0 < two64) (hyr1 : yr1 < two64) (hw0 : w0 < kPrime)
    (hL : add_mod_p yl0 yl1
      = (if cmp_z x r < (cmp_gen r xl xr).xl_p then (cmp_gen r xl xr).pl_val else 0))
    (hRr : add_mod_p yr0 yr1
      = (if cmp_z x r < (cmp_gen r xl xr).xr_p then (cmp_gen r xl xr).pr_val else 0)) :
    add_mod_p (cmp_eval yl0 yr0 w0) (cmp_eval yl1 yr1 (cmp_w1 (cmp_gen r xl xr).w w0))
      = (if xl ≤ x ∧ x < xr then 1 else 0) := by
  have L : ∀ {n : Nat}, n < kPrime → n < two64 := fun h => lt_two64_of_lt_kPrime h
  have hw : (cmp_gen r xl xr).w < kPrime := by
    unfold cmp_gen
    simp only []
    split <;> decide
  rw [recon_eq _ _ _ _ _ _ hyl0 hyl1 hyr0 hyr1 hw0 hw, hL, hRr]
  unfold cmp_z cmp_gen
  simp only []
  rw [add_mod_p_eq _ _ (L hx) (L hr), add_mod_p_eq _ _ (L hl) (L hr),
    add_mod_p_eq _ _ (L hR) (L hr)]
  have hz := mod_kPrime_cases (x + r) (by omega)
  have ha := mod_kPrime_cases (xl + r) (by omega)
  have hb := mod_kPrime_cases (xr + r) (by omega)
  have hp : sub64 kPrime 1 = kPrime - 1 := by decide
  rw [hp]
  generalize (x + r) % kPrime = z at hz ⊢
  generalize (xl + r) % kPrime = a at ha ⊢
  generalize (xr + r) % kPrime = b at hb ⊢
  clear hL hRr hw
  unfold kPrime at *
  split_ifs <;> omega

/-- Witness of C7 (amended) in the wrap regime: `x_L = 10`, `x_R = 100`, `r = p - 50`,
`x = 60`, hence `z = 10`, `x_L' = p - 40`, `x_R' = 50`, `w = 1`. -/
theorem cmp_correct_half_open_witness :
    add_mod_p (cmp_eval 18446744073709551556 0 5)
        (cmp_eval 0 1 (cmp_w1 (cmp_gen 18446744073709551507 10 100).w 5))
      = (if 10 ≤ 60 ∧ 60 < 100 then 1 else 0) :=
  cmp_correct_half_open 60 18446744073709551507 10 100 (by decide) (by decide) (by decide)
    (by decide) (by decide) 18446744073709551556 0 0 1 5 (by decide) (by decide) (by decide)
    (by decide) (by decide) (by decide) (by decide)

/-! ## Order of the accumulation -/

/-- Every `ck` is a field element. -/
theorem dotprod_ck_lt (D : DotData) (local_d local_e : Nat → Nat) (k : Nat) :
    dotprod_ck D local_d local_e k < kPrime := by
  unfold dotprod_ck
  exact add_mod_p_lt _ _

/-- Accumulating field elements `c k` from `acc` gives `acc + Σ c k` reduced modulo `p`. -/
theorem foldl_add_mod_p (c : Nat → Nat) (hc : ∀ k, c k < kPrime) (l : List Nat) (acc : Nat)
    (hacc : acc < kPrime) :
    l.foldl (fun s k => add_mod_p s (c k)) acc = (acc + (l.map c).sum) % kPrime := by
  induction l generalizing acc with
  | nil => simp [Nat.mod_eq_of_lt hacc]
  | cons k l ih =>
    rw [List.foldl_cons, ih _ (add_mod_p_lt _ _),
      add_mod_p_eq _ _ (lt_two64_of_lt_kPrime hacc) (lt_two64_of_lt_kPrime (hc k)),
      List.map_cons, List.sum_cons, Nat.mod_add_mod, Nat.add_assoc]

/-- C11: for every dimension, all contents of the share arrays and every permutation
`order` of the indices `0, …, d-1`, running the accumulation
`final_res_share = add_mod_p(final_res_share, c_k)` in that order gives the same final
share as the natural order of the kernel. -/
theorem dotprod_order_independent (kDim : Nat) (D : DotData)
    (loc0 : (Nat → Nat) × (Nat → Nat)) (order : List Nat)
    (hperm : order.Perm (List.range kDim)) :
    dotprod_kernel_order kDim D loc0 order = dotprod_kernel kDim D loc0 := by
  unfold dotprod_kernel_order dotprod_kernel dotprod_accum forLoop
  simp only []
  rw [foldl_add_mod_p _ (fun k => dotprod_ck_lt D _ _ k) order 0 (by decide),
    foldl_add_mod_p _ (fun k => dotprod_ck_lt D _ _ k) (List.range kDim) 0 (by decide),
    List.Perm.sum_eq (List.Perm.map _ hperm)]

/-- Witness of C11: dimension 4 visited in the order 2, 0, 3, 1. -/
theorem dotprod_order_independent_witness :
    dotprod_kernel_order 4 exampleDot (fun _ => 0, fun _ => 0) [2, 0, 3, 1]
      = dotprod_kernel 4 exampleDot (fun _ => 0, fun _ => 0) :=
  dotprod_order_independent 4 exampleDot (fun _ => 0, fun _ => 0) [2, 0, 3, 1] (by decide)

/-! ## The score phase of `retrieval.c` -/

/-- After the precomputation loop, `d1_buf[k]` and `e1_buf[k]` hold party 1's differences
for every `k < kDim`. -/
theorem retrieval_fill_bufs_eq (kDim : Nat) (D : DotData) (bufs0 : (Nat → Nat) × (Nat → Nat))
    (k : Nat) (hk : k < kDim) :
    (retrieval_fill_bufs kDim D bufs0).1 k = sub_mod_p (D.share_a_1 k) (D.share_x_1 k) ∧
    (retrieval_fill_bufs kDim D bufs0).2 k = sub_mod_p (D.share_b_1 k) (D.share_y_1 k) := by
  unfold retrieval_fill_bufs
  induction kDim with
  | zero => omega
  | succ n ih =>
    rw [forLoop_succ]
    by_cases hkn : k = n
    · subst hkn
      simp only [Function.update_same, and_self]
    · have hlt : k < n := by omega
      simp only [Function.update_noteq hkn]
      exact ih hlt

/-- The kernel of `dotprod.c` does not depend on the former content of `local_d`,
`local_e`: it accumulates the terms built from party 0's differences. -/
theorem dotprod_kernel_eq (kDim : Nat) (D : DotData) (loc0 : (Nat → Nat) × (Nat → Nat)) :
    dotprod_kernel kDim D loc0
      = forLoop kDim (fun acc k => add_mod_p acc
          (dotprod_ck D (fun j => sub_mod_p (D.share_a_0 j) (D.share_x_0 j))
            (fun j => sub_mod_p (D.share_b_0 j) (D.share_y_0 j)) k)) 0 := by
  unfold dotprod_kernel
  apply accum_congr
  intro k hk
  obtain ⟨h1, h2⟩ := dotprod_fill_local_eq kDim D loc0 k hk
  unfold dotprod_ck
  simp only [h1, h2]

/-- The score loop of `retrieval.c` accumulates the same terms. -/
theorem retrieval_score_eq (kDim : Nat) (D : DotData) (bufs0 : (Nat → Nat) × (Nat → Nat))
    (loc0 : Nat → (Nat → Nat) × (Nat → Nat)) (iter : Nat) :
    retrieval_score kDim D bufs0 loc0 iter
      = forLoop kDim (fun acc k => add_mod_p acc
          (dotprod_ck D (fun j => sub_mod_p (D.share_a_0 j) (D.share_x_0 j))
            (fun j => sub_mod_p (D.share_b_0 j) (D.share_y_0 j)) k)) 0 := by
  unfold retrieval_score
  apply accum_congr
  intro k hk
  obtain ⟨h1, h2⟩ := dotprod_fill_local_eq kDim D (loc0 iter) k hk
  obtain ⟨h3, h4⟩ := retrieval_fill_bufs_eq kDim D bufs0 k hk
  have e : retrieval_fill_local kDim D (loc0 iter) = dotprod_fill_local kDim D (loc0 iter) :=
    rfl
  unfold retrieval_ck dotprod_ck
  simp only [e, h1, h2, h3, h4]

/-- C12: for all share arrays, every pass of the score loop of `retrieval.c`, which reads
party 1's differences from the precomputed `d1_buf`, `e1_buf`, leaves in
`final_res_share` exactly the value that one pass of the kernel of `dotprod.c` computes
on the same arrays, and that value is the same for every document index `iter`. -/
theorem retrieval_score_is_dotprod (kDim : Nat) (D : DotData)
    (bufs0 loc0' : (Nat → Nat) × (Nat → Nat)) (loc0 : Nat → (Nat → Nat) × (Nat → Nat))
    (iter iter' : Nat) :
    retrieval_score kDim D bufs0 loc0 iter = dotprod_kernel kDim D loc0' ∧
    retrieval_score kDim D bufs0 loc0 iter = retrieval_score kDim D bufs0 loc0 iter' := by
  rw [retrieval_score_eq, retrieval_score_eq, dotprod_kernel_eq]
  exact ⟨rfl, rfl⟩

/-! ## The step loop of `retrieval.c` -/

/-- A counted loop of `n` passes adds `n` to its counter, whatever the body does. -/
theorem counted_loop_snd {σ : Type} (n : Nat) (body : σ → Nat → σ) (st : σ) (c : Nat) :
    (forLoop n (fun p s => (body p.1 s, p.2 + 1)) (st, c)).2 = c + n := by
  induction n with
  | zero => rfl
  | succ n ih => rw [forLoop_succ]; simp only [ih]; omega

/-- The ceiling of the binary logarithm of `kN` is 17 (`kN = 2^17`). -/
theorem clog_retrieval_kN : Nat.clog 2 retrieval_kN = 17 := by
  have e : retrieval_kN = 2 ^ 17 := by decide
  rw [e, Nat.clog_pow 2 17 (by decide)]

/-- The step loop runs `kStep` passes. -/
theorem step_loop_count {σ : Type} (body : σ → Nat → σ) (st : σ) :
    (retrieval_step_loop body st).2 = retrieval_kStep := by
  unfold retrieval_step_loop
  rw [counted_loop_snd, Nat.zero_add]

/-- C13 as stated fails: the step loop runs 13 passes, and `⌈log₂ kN⌉` is 17 for
`kN = 131072`. -/
theorem retrieval_steps_counterexample :
    (retrieval_step_loop (fun (u : Unit) (_ : Nat) => u) ()).2 = 13 ∧
    Nat.clog 2 retrieval_kN = 17 ∧
    (retrieval_step_loop (fun (u : Unit) (_ : Nat) => u) ()).2 ≠ Nat.clog 2 retrieval_kN := by
  have h : (retrieval_step_loop (fun (u : Unit) (_ : Nat) => u) ()).2 = 13 :=
    step_loop_count _ _
  refine ⟨h, clog_retrieval_kN, ?_⟩
  rw [h, clog_retrieval_kN]
  decide

/-- C13 (amended): whatever the loop body does to the program state, the step loop of
the binary-search phase runs exactly `kStep` = 13 passes for the configured
`kN` = 131072, which is fewer than `⌈log₂ kN⌉` = 17. -/
theorem retrieval_steps_eq_kStep {σ : Type} (body : σ → Nat → σ) (st : σ) :
    (retrieval_step_loop body st).2 = retrieval_kStep ∧
    retrieval_kStep = 13 ∧ retrieval_kN = 131072 ∧
    (retrieval_step_loop body st).2 < Nat.clog 2 retrieval_kN := by
  have h : (retrieval_step_loop body st).2 = retrieval_kStep := step_loop_count body st
  refine ⟨h, rfl, rfl, ?_⟩
  rw [h, clog_retrieval_kN]
  decide

/-! ## Negation and addition together -/

theorem leBytes_leVal (bs : List Nat) (h : ∀ b ∈ bs, b < 256) :
    leBytes bs.length (leVal bs) = bs := by
  induction bs with
  | nil => rfl
  | cons b bs ih =>
    have hb : b < 256 := h b (List.mem_cons_self _ _)
    have ht := ih (fun c hc => h c (List.mem_cons_of_mem _ hc))
    simp only [List.length_cons, leBytes, leVal]
    have e1 : (b + 256 * leVal bs) % 256 = b := by omega
    have e2 : (b + 256 * leVal bs) / 256 = leVal bs := by omega
    rw [e1, e2, ht]

theorem memset_hi_eq (buf : List Nat) (h : buf.length = kLambda) :
    memset buf 8 0 8 = buf.take 8 ++ List.replicate 8 0 := by
  unfold memset
  have hd : buf.drop (8 + 8) = [] := by
    apply List.drop_eq_nil_of_le
    rw [h]; decide
  rw [hd, List.append_nil]

theorem isBuf_memset_hi (buf : List Nat) (h : IsBuf buf) : IsBuf (memset buf 8 0 8) := by
  rw [memset_hi_eq buf h.1]
  refine ⟨?_, ?_⟩
  · rw [List.length_append, List.length_take, List.length_replicate, h.1]
    rfl
  · intro b hb
    rcases List.mem_append.mp hb with hb | hb
    · exact h.2 b (List.mem_of_mem_take hb)
    · rw [(List.mem_replicate.mp hb).2]
      decide

/-- The buffer written by `group_neg` and its low word. -/
theorem group_neg_word (v : List Nat) (hv : IsBuf v) :
    IsBuf (group_neg v) ∧
    load64 (group_neg v)
      = (if load64 v % kPrime = 0 then 0 else kPrime - load64 v % kPrime) := by
  obtain ⟨hb1, hl1⟩ := canon_step v hv
  unfold group_neg
  simp only []
  generalize (if load64 v ≥ kPrime then store64 v (sub64 (load64 v) kPrime) else v) = val1
    at hb1 hl1
  by_cases h0 : load64 val1 = 0
  · rw [if_pos h0, if_pos (by rw [← hl1, h0])]
    exact ⟨hb1, h0⟩
  · rw [if_neg h0, if_neg (by rw [← hl1]; exact h0)]
    have hb2 := isBuf_store64 val1 (sub64 kPrime (load64 val1)) hb1
    refine ⟨isBuf_memset_hi _ hb2, ?_⟩
    rw [load64_memset_hi _ hb2.1, load64_store64 _ _ (sub64_lt _ _), hl1]
    have hlt : load64 v % kPrime < kPrime := Nat.mod_lt _ (by decide)
    generalize load64 v % kPrime = m at hlt
    unfold sub64 two64 kPrime at *
    omega

/-- The low word written by `group_add`. -/
theorem group_add_word (v w : List Nat) (hv : IsBuf v) (hw : IsBuf w) :
    load64 (group_add v w).1 = (load64 v + load64 w) % kPrime := by
  obtain ⟨hb1, hl1⟩ := canon_step v hv
  have ha := load64_lt v hv
  have hb := load64_lt w hw
  unfold group_add
  simp only []
  generalize (if load64 v ≥ kPrime then store64 v (sub64 (load64 v) kPrime) else v) = val1
    at hb1 hl1
  generalize hr : (if load64 w ≥ kPrime then sub64 (load64 w) kPrime else load64 w) = rhs64
  have hr' : rhs64 = load64 w % kPrime := by
    rw [← hr]
    unfold sub64 two64 kPrime at *
    split <;> omega
  have hs : ∀ x, (store64 val1 x).length = kLambda := fun x => (isBuf_store64 _ x hb1).1
  split
  · rename_i hc
    rw [load64_memset_hi _ (hs _), load64_store64 _ _ (add64_lt _ _), hl1, hr']
    rw [hl1, hr'] at hc
    unfold add64 sub64 two64 kPrime at *
    omega
  · rename_i hc
    rw [load64_memset_hi _ (hs _), load64_store64 _ _ (add64_lt _ _), hl1, hr']
    rw [hl1, hr'] at hc
    unfold add64 sub64 two64 kPrime at *
    omega

/-- On a canonical buffer with a non-zero word `group_neg` writes `p - a` over a cleared
upper half. -/
theorem group_neg_canonical (v : List Nat) (hv : IsBuf v) (hlt : load64 v < kPrime)
    (h0 : load64 v ≠ 0) :
    group_neg v = leBytes 8 (kPrime - load64 v) ++ List.replicate 8 0 := by
  have hc : ¬ load64 v ≥ kPrime := by omega
  unfold group_neg
  simp only []
  rw [if_neg hc, if_neg h0]
  have hb2 := isBuf_store64 v (sub64 kPrime (load64 v)) hv
  rw [memset_hi_eq _ hb2.1]
  unfold store64
  rw [List.take_left' (length_leBytes 8 _)]
  have e : sub64 kPrime (load64 v) = kPrime - load64 v := by
    unfold sub64 two64 kPrime at *
    omega
  rw [e]

/-- C14: for every 16-byte buffer `v` holding an arbitrary 64-bit word, adding to `v` the
buffer obtained from a copy of `v` by `group_neg` leaves the field element 0 in the low
word; and on a canonical `v` (word below `p`, upper half zero) two calls of `group_neg`
give back `v` byte for byte. -/
theorem group_neg_is_inverse (v : List Nat) (hv : IsBuf v) :
    load64 (group_add v (group_neg v)).1 = 0 ∧
    (load64 v < kPrime → v.drop 8 = List.replicate 8 0 → group_neg (group_neg v) = v) := by
  obtain ⟨hbn, hln⟩ := group_neg_word v hv
  refine ⟨?_, ?_⟩
  · rw [group_add_word v (group_neg v) hv hbn, hln]
    have hm : load64 v % kPrime < kPrime := Nat.mod_lt _ (by decide)
    split
    · rename_i h0
      rw [Nat.add_zero, h0]
    · rename_i h0
      rw [Nat.add_mod, Nat.mod_eq_of_lt (a := kPrime - load64 v % kPrime) (by omega)]
      have e : load64 v % kPrime + (kPrime - load64 v % kPrime) = kPrime := by omega
      rw [e, Nat.mod_self]
  · intro hlt hup
    by_cases h0 : load64 v = 0
    · have hc : ¬ load64 v ≥ kPrime := by omega
      have e : group_neg v = v := by
        unfold group_neg
        simp only []
        rw [if_neg hc, if_pos h0]
      rw [e, e]
    · have e1 := group_neg_canonical v hv hlt h0
      have hl1 : load64 (group_neg v) = kPrime - load64 v := by
        rw [hln, Nat.mod_eq_of_lt hlt, if_neg h0]
      have e2 := group_neg_canonical (group_neg v) hbn (by rw [hl1]; omega)
        (by rw [hl1]; omega)
      rw [e2, hl1]
      have e3 : kPrime - (kPrime - load64 v) = load64 v := by omega
      have h8 : (v.take 8).length = 8 := by rw [List.length_take, hv.1]; rfl
      have e4 : leBytes 8 (load64 v) = v.take 8 := by
        have := leBytes_leVal (v.take 8) (fun b hb => hv.2 b (List.mem_of_mem_take hb))
        rw [h8] at this
        exact this
      rw [e3, e4, ← hup, List.take_append_drop]

/-- Witness of C14: the non-canonical word `p + 2` for the sum, the canonical word 5 for
the double negation. -/
theorem group_neg_is_inverse_witness :
    load64 (group_add [199, 255, 255, 255, 255, 255, 255, 255, 1, 2, 3, 4, 5, 6, 7, 8]
      (group_neg [199, 255, 255, 255, 255, 255, 255, 255, 1, 2, 3, 4, 5, 6, 7, 8])).1 = 0 ∧
    group_neg (group_neg [5, 0, 0, 0, 0, 0, 0, 0, 0, 0, 0, 0, 0, 0, 0, 0])
      = [5, 0, 0, 0, 0, 0, 0, 0, 0, 0, 0, 0, 0, 0, 0, 0] :=
  ⟨(group_neg_is_inverse [199, 255, 255, 255, 255, 255, 255, 255, 1, 2, 3, 4, 5, 6, 7, 8]
      (by decide)).1,
   (group_neg_is_inverse [5, 0, 0, 0, 0, 0, 0, 0, 0, 0, 0, 0, 0, 0, 0, 0] (by decide)).2
      (by decide) (by decide)⟩

end Akprag
